import Mathlib

/-!
Verification of the SM2 wrapper module (`crypto/gm/sm2.go`) of the
chain33-sdk-go repository.

Bytes are modelled as `List ℕ` (each entry a value `< 256`); arbitrary
precision integers (`big.Int`, always non-negative here) as `ℕ`.
`big.Int.Bytes` is the minimal big-endian encoding, embedded as
`natToBytesBE`; `big.Int.SetBytes` is the big-endian interpretation,
embedded as `bytesToNatBE`.

The underlying curve, hash and DER primitives live in external
libraries (`tjfoc/gmsm`, `btcsuite/btcd/btcec`); where a property
depends on them they are modelled from the specification, each such
definition carrying a doc comment starting with `Modelled from the
spec:`. In particular the curve group, which the spec treats as an
external trusted primitive, is modelled abstractly as the cyclic group
`ZMod n` of order `n` written additively with base point `G = 1`, so
the point `k·G` is the residue of `k` and the x-coordinate of a point
is an arbitrary function `xc : ZMod n → ℕ`.
-/

namespace GM

/-- Helper for `natToBytesBE`: structural recursion on a fuel argument
(the fuel is always at least the number to encode, which bounds the
number of base-256 digits). -/
def natToBytesBEAux : ℕ → ℕ → List ℕ
  | _, 0 => []
  | 0, _ + 1 => []
  | fuel + 1, m + 1 => natToBytesBEAux fuel ((m + 1) / 256) ++ [(m + 1) % 256]

/-- Embedding of `big.Int.Bytes`: minimal big-endian base-256 encoding,
`[]` for zero. -/
def natToBytesBE (m : ℕ) : List ℕ := natToBytesBEAux m m

/-- Embedding of `big.Int.SetBytes`: big-endian interpretation of a byte
string as a natural number. -/
def bytesToNatBE (bs : List ℕ) : ℕ := bs.foldl (fun acc b => acc * 256 + b) 0

/-- Order `n` of the SM2 curve (`sm2.P256Sm2().Params().N`). -/
def nSM2 : ℕ := 0xFFFFFFFEFFFFFFFFFFFFFFFFFFFFFFFF7203DF6B21C6052B53BBF40939D54123

/-- `SM2PrivateKeyLength` from the source. -/
def SM2PrivateKeyLength : ℕ := 32

/-- `DefaultUID` from the source. -/
def DefaultUID : List ℕ :=
  [0x31, 0x32, 0x33, 0x34, 0x35, 0x36, 0x37, 0x38,
   0x31, 0x32, 0x33, 0x34, 0x35, 0x36, 0x37, 0x38]

/-- Embedding of `paddedAppend`: appends `size - src.length` zero bytes
(none when `src` is already long enough) and then `src` to `dst`. -/
def paddedAppend (size : ℕ) (dst src : List ℕ) : List ℕ :=
  dst ++ List.replicate (size - src.length) 0 ++ src

/-- Embedding of `SerializePrivateKey`: the private scalar `d`
(`p.D.Bytes()`) padded on the left with zeros to 32 bytes. -/
def SerializePrivateKey (d : ℕ) : List ℕ :=
  paddedAppend SM2PrivateKeyLength [] (natToBytesBE d)

/-- Embedding of `canonicalizeInt`: minimal big-endian bytes of `val`
(with `[0]` for zero), prefixed by a zero byte when the high bit of the
first byte is set. -/
def canonicalizeInt (val : ℕ) : List ℕ :=
  let b0 := natToBytesBE val
  let b := if b0 = [] then [0] else b0
  if b.headI &&& 0x80 ≠ 0 then 0 :: b else b

/-- Embedding of `SerializeSignature`: DER-style sequence
`0x30 LEN 0x02 LEN(r) r 0x02 LEN(s) s` with the length bytes reduced
modulo 256 exactly as the Go `byte(...)` conversion does. -/
def SerializeSignature (r s : ℕ) : List ℕ :=
  let rb := canonicalizeInt r
  let sb := canonicalizeInt s
  let length := 6 + rb.length + sb.length
  [0x30, (length - 2) % 256, 0x02, rb.length % 256] ++ rb ++
    [0x02, sb.length % 256] ++ sb

/-- The signature integer-field encoding as worded by the spec: the
minimal big-endian encoding of the value, with one leading zero byte
prepended exactly when the high bit of its first byte would otherwise
be set. -/
def asn1IntField (v : ℕ) : List ℕ :=
  if 0x80 ≤ (natToBytesBE v).headI then 0 :: natToBytesBE v else natToBytesBE v

/-- Error kinds named by the spec (section 7). -/
inductive SM2Error
  | InvalidKeyLength
  | InvalidPoint
  | MalformedSignature
  | MacMismatch
  | EntropyFailure
deriving DecidableEq, Repr

/-- Modelled from the spec: one integer field of the DER-style
signature sequence — tag `0x02`, one length byte, that many content
bytes (big-endian value; non-canonical padding is tolerated on decode).
Returns the value and the unconsumed remainder. -/
def parseIntField (l : List ℕ) : Except SM2Error (ℕ × List ℕ) :=
  match l with
  | t :: len :: rest =>
    if t = 0x02 then
      if len ≤ rest.length then
        Except.ok (bytesToNatBE (rest.take len), rest.drop len)
      else Except.error SM2Error.MalformedSignature
    else Except.error SM2Error.MalformedSignature
  | _ => Except.error SM2Error.MalformedSignature

/-- Modelled from the spec: `decodeSignature` — the source
`DeserializeSignature` delegates to the external
`btcec.ParseDERSignature`; this definition follows the wording of the
spec: tag `0x30`, a length byte that must equal the length of the two
inner integer fields, the two `0x02` integer fields, and no trailing
bytes, failing with `MalformedSignature` on any structural mismatch. -/
def DeserializeSignature (sig : List ℕ) : Except SM2Error (ℕ × ℕ) :=
  match sig with
  | t :: len :: rest =>
    if t = 0x30 ∧ len = rest.length then
      match parseIntField rest with
      | Except.ok (r, rest2) =>
        match parseIntField rest2 with
        | Except.ok (s, rest3) =>
          if rest3 = [] then Except.ok (r, s)
          else Except.error SM2Error.MalformedSignature
        | Except.error e => Except.error e
      | Except.error e => Except.error e
    else Except.error SM2Error.MalformedSignature
  | _ => Except.error SM2Error.MalformedSignature

/-- Embedding of the nil-identifier handling shared by `SM2Sign` and
`SM2Verify`: a nil slice (`none`) is replaced by `DefaultUID`; any
non-nil slice, including the empty one, is passed through unchanged. -/
def resolveUID : Option (List ℕ) → List ℕ
  | none => DefaultUID
  | some u => u

/-- Embedding of the `SM2Sign` wrapper: resolve a nil identifier to the
default, sign via the library routine (abstracted as the parameter
`inner`), and serialize the resulting pair. -/
def SM2Sign (inner : List ℕ → List ℕ → List ℕ → Except Unit (ℕ × ℕ))
    (msg privateKey : List ℕ) (uid : Option (List ℕ)) : Except Unit (List ℕ) :=
  match inner msg privateKey (resolveUID uid) with
  | Except.error e => Except.error e
  | Except.ok (r, s) => Except.ok (SerializeSignature r s)

/-- Embedding of the `SM2Verify` wrapper: resolve a nil identifier to
the default, parse the DER signature, return `false` on a parse error,
and otherwise defer to the library verification routine (abstracted as
the parameter `inner`). -/
def SM2Verify (inner : List ℕ → List ℕ → List ℕ → ℕ → ℕ → Bool)
    (publicKey msg : List ℕ) (uid : Option (List ℕ)) (sig : List ℕ) : Bool :=
  match DeserializeSignature sig with
  | Except.error _ => false
  | Except.ok (r, s) => inner publicKey msg (resolveUID uid) r s

/-- Embedding of `bytes.Compare(a, b) < 0`: lexicographic byte-slice
comparison as in the Go standard library (byte-wise, a proper leading
slice compares below the longer one). -/
def bytesLt : List ℕ → List ℕ → Bool
  | [], [] => false
  | [], _ :: _ => true
  | _ :: _, [] => false
  | a :: xs, b :: ys => if a < b then true else if b < a then false else bytesLt xs ys

/-- `sm2.P256Sm2().Params().N.Bytes()` — the 32 bytes of the curve
order. -/
def NBytesSM2 : List ℕ := natToBytesBE nSM2

/-- Embedding of the `GenerateKey` retry loop: `draws` is the stream of
results of `getRandBytes(32)` (`Except.error` when the entropy source
reports failure, in which case `getRandBytes` panics); the loop rejects
a draw that is not lexicographically below the curve-order bytes and
retries with the next one. The result is `none` when the fuel runs
out, `some (Except.error ())` when the entropy source failed (the
panic of `getRandBytes`, fatal and immediate) and `some (Except.ok
key)` for the first accepted draw. -/
def generateKeyLoop (draws : ℕ → Except Unit (List ℕ)) :
    ℕ → Option (Except Unit (List ℕ))
  | 0 => none
  | fuel + 1 =>
    match draws 0 with
    | Except.error e => some (Except.error e)
    | Except.ok key =>
      if bytesLt key NBytesSM2 then some (Except.ok key)
      else generateKeyLoop (fun i => draws (i + 1)) fuel

/-- The private scalar produced by `GenerateKey`: the accepted draw
interpreted big-endian (`PrivKeyFromBytes` via `big.Int.SetBytes`). -/
def generateKeyScalar (draws : ℕ → Except Unit (List ℕ)) (fuel : ℕ) :
    Option (Except Unit ℕ) :=
  (generateKeyLoop draws fuel).map (Except.map bytesToNatBE)

/-- Modelled from the spec: one attempt of the SM2 signing algorithm
(steps 2-4 of section 4.3) over the abstract cyclic curve group, given
the digest `e`, the private scalar `d` and the random scalar `k`. The
modular inverse of the trusted big-integer library is the parameter
`inv`. Returns `none` when the attempt must be retried (`r = 0`,
`r + k = n`, or `s = 0`). -/
def signAttempt (n : ℕ) [NeZero n] (inv : ZMod n → ZMod n) (xc : ZMod n → ℕ)
    (d e k : ℕ) : Option (ℕ × ℕ) :=
  let x1 := xc (k : ZMod n)
  let r := (e + x1) % n
  if r = 0 ∨ r + k = n then none
  else
    let s := inv (1 + (d : ZMod n)) * ((k : ZMod n) - (r : ZMod n) * (d : ZMod n))
    if s = 0 then none else some (r, s.val)

/-- Modelled from the spec: the signing retry loop. `ks` is the stream
of random scalars drawn in `[1, n-1]` (`Except.error` when the entropy
source fails, which propagates immediately as a fatal error). -/
def signLoop (n : ℕ) [NeZero n] (inv : ZMod n → ZMod n) (xc : ZMod n → ℕ)
    (d e : ℕ) (ks : ℕ → Except Unit ℕ) : ℕ → Option (Except Unit (ℕ × ℕ))
  | 0 => none
  | fuel + 1 =>
    match ks 0 with
    | Except.error err => some (Except.error err)
    | Except.ok k =>
      match signAttempt n inv xc d e k with
      | some rs => some (Except.ok rs)
      | none => signLoop n inv xc d e (fun i => ks (i + 1)) fuel

/-- Modelled from the spec: SM2 verification (section 4.3) over the
abstract cyclic curve group: reject unless `r, s ∈ [1, n-1]`, reject
when `t = (r + s) mod n` is zero, compute `s·G + t·P` and accept iff
`(e + x1) mod n = r`. -/
def verifySig (n : ℕ) [NeZero n] (xc : ZMod n → ℕ) (P : ZMod n) (e r s : ℕ) : Bool :=
  if r = 0 ∨ n ≤ r ∨ s = 0 ∨ n ≤ s then false
  else
    let t := (r + s) % n
    if t = 0 then false
    else
      let x1 := xc ((s : ZMod n) + (t : ZMod n) * P)
      decide ((e + x1) % n = r)

/-- Modelled from the spec: `ENTL`, the bit-length of the identifier
encoded as a 2-byte big-endian value. -/
def entlBytes (id : List ℕ) : List ℕ :=
  [8 * id.length / 256 % 256, 8 * id.length % 256]

/-- Modelled from the spec: the identity-bound preprocessing digest
`ZA = Hash(ENTL, ID, a, b, xG, yG, xA, yA)` with the hash abstract and
the curve constants and public-key coordinates given as byte strings
`pa pb pxG pyG pxA pyA`. -/
def computeZA (hash : List ℕ → List ℕ) (pa pb pxG pyG pxA pyA id : List ℕ) :
    List ℕ :=
  hash (entlBytes id ++ id ++ pa ++ pb ++ pxG ++ pyG ++ pxA ++ pyA)

/-- Modelled from the spec: the message digest actually signed and
verified, `Hash(ZA, M)`, interpreted big-endian as an integer. -/
def sm2Digest (hash : List ℕ → List ℕ) (pa pb pxG pyG pxA pyA id msg : List ℕ) :
    ℕ :=
  bytesToNatBE (hash (computeZA hash pa pb pxG pyG pxA pyA id ++ msg))

/-- Modelled from the spec, composed with the source wrapper `SM2Sign`:
resolve a nil identifier, compute the identity-bound digest, and run
the signing loop. -/
def sm2SignModel (n : ℕ) [NeZero n] (inv : ZMod n → ZMod n) (xc : ZMod n → ℕ)
    (hash : List ℕ → List ℕ) (pa pb pxG pyG pxA pyA : List ℕ) (d : ℕ)
    (msg : List ℕ) (uid : Option (List ℕ)) (ks : ℕ → Except Unit ℕ) (fuel : ℕ) :
    Option (Except Unit (ℕ × ℕ)) :=
  signLoop n inv xc d (sm2Digest hash pa pb pxG pyG pxA pyA (resolveUID uid) msg)
    ks fuel

/-- Modelled from the spec, composed with the source wrapper
`SM2Verify` (after signature decoding): resolve a nil identifier,
compute the same digest, and verify against the public point `P`. -/
def sm2VerifyModel (n : ℕ) [NeZero n] (xc : ZMod n → ℕ)
    (hash : List ℕ → List ℕ) (pa pb pxG pyG pxA pyA : List ℕ) (P : ZMod n)
    (msg : List ℕ) (uid : Option (List ℕ)) (r s : ℕ) : Bool :=
  verifySig n xc P (sm2Digest hash pa pb pxG pyG pxA pyA (resolveUID uid) msg) r s

/-- Brute-force modular inverse on `ZMod n`, used to instantiate the
abstract `inv` parameter on small concrete orders. -/
def zmodInvSmall (n : ℕ) [NeZero n] (a : ZMod n) : ZMod n :=
  ((((List.range n).map (fun i => (i : ZMod n))).find? (fun b => a * b == 1)).getD 0)

/-- Modelled from the spec: `decodePublicKey` over a prime field of
modulus `p` with curve coefficients `ca`, `cb` (the source `parsePubKey`
delegates to the external `sm2.Decompress`): a 33-byte compressed
encoding — one parity byte `0x02`/`0x03` and 32 bytes of big-endian
`x`; the candidate `y` is recovered by solving the curve equation
`y^2 = x^3 + ca·x + cb` over the field and matching the parity bit,
and decoding fails with `InvalidPoint` when no such `y` exists. -/
def decodePublicKey (p ca cb : ℕ) (input : List ℕ) : Except SM2Error (ℕ × ℕ) :=
  match input with
  | pb :: xbytes =>
    if xbytes.length = 32 then
      if pb = 0x02 ∨ pb = 0x03 then
        let x := bytesToNatBE xbytes
        match (List.range p).find?
            (fun y => y * y % p == (x ^ 3 + ca * x + cb) % p && y % 2 == pb % 2) with
        | some y => Except.ok (x, y)
        | none => Except.error SM2Error.InvalidPoint
      else Except.error SM2Error.InvalidPoint
    else Except.error SM2Error.InvalidKeyLength
  | [] => Except.error SM2Error.InvalidKeyLength

/-- Modelled from the spec: one attempt of SM2 encryption (steps 1-3
of section 4.4, the part that consumes randomness) over the abstract
cyclic curve group, with the coordinate encodings `xBytes`/`yBytes`,
the key-derivation function `kdf` and the hash treated as external
trusted primitives. Given the random scalar `k`: the ephemeral point
is `C1 = k·G`; the shared point is `k·P`, and the attempt is retried
(`none`) when it is the point at infinity (`0` in the group) or when
the keystream derived from its coordinates is all-zero; otherwise the
output is `C1, C3, C2` with `C2` the XOR-masked message and `C3` the
hash of `x2, M, y2`. -/
def encryptAttempt (n : ℕ) [NeZero n] (xBytes yBytes : ZMod n → List ℕ)
    (kdf : List ℕ → ℕ → List ℕ) (hash : List ℕ → List ℕ)
    (P : ZMod n) (msg : List ℕ) (k : ℕ) : Option (List ℕ) :=
  let c1 := xBytes (k : ZMod n) ++ yBytes (k : ZMod n)
  let shared := (k : ZMod n) * P
  if shared = 0 then none
  else
    let keystream := kdf (xBytes shared ++ yBytes shared) msg.length
    if keystream.all (fun b => b == 0) then none
    else
      let c2 := List.zipWith (fun a b => a ^^^ b) msg keystream
      let c3 := hash (xBytes shared ++ msg ++ yBytes shared)
      some (c1 ++ c3 ++ c2)

/-- Modelled from the spec: the encryption retry loop of section 4.4.
`ks` is the stream of random scalars drawn in `[1, n-1]`
(`Except.error` when the entropy source fails, which propagates
immediately as a fatal error instead of being retried). -/
def encryptLoop (n : ℕ) [NeZero n] (xBytes yBytes : ZMod n → List ℕ)
    (kdf : List ℕ → ℕ → List ℕ) (hash : List ℕ → List ℕ) (P : ZMod n)
    (msg : List ℕ) (ks : ℕ → Except Unit ℕ) : ℕ → Option (Except Unit (List ℕ))
  | 0 => none
  | fuel + 1 =>
    match ks 0 with
    | Except.error err => some (Except.error err)
    | Except.ok k =>
      match encryptAttempt n xBytes yBytes kdf hash P msg k with
      | some c => some (Except.ok c)
      | none =>
        encryptLoop n xBytes yBytes kdf hash P msg (fun i => ks (i + 1)) fuel

/-! ### Basic facts about the byte codecs -/

theorem natToBytesBEAux_fuel (fuel m : ℕ) (h : m ≤ fuel) :
    natToBytesBEAux fuel m = natToBytesBE m := by
  induction fuel using Nat.strong_induction_on generalizing m with
  | _ fuel ih =>
    match fuel, m with
    | fuel, 0 => cases fuel <;> rfl
    | fuel + 1, m + 1 =>
      have hq : (m + 1) / 256 ≤ m := by
        have := Nat.div_lt_self (Nat.succ_pos m) (by norm_num : (1:ℕ) < 256)
        omega
      have hm : m ≤ fuel := Nat.succ_le_succ_iff.mp h
      show natToBytesBEAux fuel ((m + 1) / 256) ++ [(m + 1) % 256] = natToBytesBE (m + 1)
      rw [ih fuel (Nat.lt_succ_self fuel) _ (le_trans hq hm)]
      show _ = natToBytesBEAux (m + 1) (m + 1)
      show _ = natToBytesBEAux m ((m + 1) / 256) ++ [(m + 1) % 256]
      rw [ih m (by omega) _ hq]

theorem natToBytesBE_zero : natToBytesBE 0 = [] := rfl

theorem natToBytesBE_succ (m : ℕ) :
    natToBytesBE (m + 1) = natToBytesBE ((m + 1) / 256) ++ [(m + 1) % 256] := by
  show natToBytesBEAux m ((m + 1) / 256) ++ [(m + 1) % 256] = _
  rw [natToBytesBEAux_fuel m ((m + 1) / 256) (by
    have := Nat.div_lt_self (Nat.succ_pos m) (by norm_num : (1:ℕ) < 256)
    omega)]

theorem natToBytesBE_pos (m : ℕ) (h : 0 < m) :
    natToBytesBE m = natToBytesBE (m / 256) ++ [m % 256] := by
  cases m with
  | zero => omega
  | succ k => exact natToBytesBE_succ k

theorem bytesToNatBE_nil : bytesToNatBE [] = 0 := rfl

theorem foldl_byte_shift (bs : List ℕ) (a : ℕ) :
    bs.foldl (fun acc b => acc * 256 + b) a =
      a * 256 ^ bs.length + bs.foldl (fun acc b => acc * 256 + b) 0 := by
  induction bs generalizing a with
  | nil => simp
  | cons x xs ih =>
    show xs.foldl _ (a * 256 + x) = _
    rw [ih (a * 256 + x)]
    show _ = a * 256 ^ (xs.length + 1) + xs.foldl _ (0 * 256 + x)
    rw [ih (0 * 256 + x)]
    ring

theorem bytesToNatBE_append (xs ys : List ℕ) :
    bytesToNatBE (xs ++ ys) = bytesToNatBE xs * 256 ^ ys.length + bytesToNatBE ys := by
  unfold bytesToNatBE
  rw [List.foldl_append, foldl_byte_shift]

theorem bytesToNatBE_natToBytesBE (m : ℕ) : bytesToNatBE (natToBytesBE m) = m := by
  induction m using Nat.strong_induction_on with
  | _ m ih =>
    cases m with
    | zero => rfl
    | succ k =>
      rw [natToBytesBE_succ, bytesToNatBE_append]
      have hq : (k + 1) / 256 < k + 1 :=
        Nat.div_lt_self (Nat.succ_pos k) (by norm_num : (1:ℕ) < 256)
      rw [ih _ hq]
      show (k + 1) / 256 * 256 ^ 1 + (0 * 256 + (k + 1) % 256) = k + 1
      rw [pow_one]
      omega

theorem natToBytesBE_length_le (m k : ℕ) (h : m < 256 ^ k) :
    (natToBytesBE m).length ≤ k := by
  induction m using Nat.strong_induction_on generalizing k with
  | _ m ih =>
    cases m with
    | zero => simp [natToBytesBE_zero]
    | succ j =>
      cases k with
      | zero => simp at h
      | succ k =>
        rw [natToBytesBE_succ]
        have hq : (j + 1) / 256 < j + 1 :=
          Nat.div_lt_self (Nat.succ_pos j) (by norm_num : (1:ℕ) < 256)
        have hqk : (j + 1) / 256 < 256 ^ k := by
          rw [Nat.div_lt_iff_lt_mul (by norm_num : 0 < 256)]
          calc j + 1 < 256 ^ (k + 1) := h
          _ = 256 ^ k * 256 := by ring
        have := ih _ hq k hqk
        simp [List.length_append]
        omega

theorem natToBytesBE_ne_nil (m : ℕ) (h : 0 < m) : natToBytesBE m ≠ [] := by
  rw [natToBytesBE_pos m h]
  simp

theorem natToBytesBE_head_ne_zero (m : ℕ) (h : 0 < m) :
    (natToBytesBE m).headI ≠ 0 := by
  induction m using Nat.strong_induction_on with
  | _ m ih =>
    rw [natToBytesBE_pos m h]
    rcases Nat.eq_zero_or_pos (m / 256) with hq | hq
    · rw [hq, natToBytesBE_zero, List.nil_append]
      have : m < 256 := by
        rcases Nat.lt_or_ge m 256 with h1 | h1
        · exact h1
        · exfalso
          have : 0 < m / 256 := Nat.div_pos h1 (by norm_num)
          omega
      have : m % 256 = m := Nat.mod_eq_of_lt this
      simp [List.headI, this]
      omega
    · have hlt : m / 256 < m := Nat.div_lt_self h (by norm_num : (1:ℕ) < 256)
      have := ih _ hlt hq
      rcases List.exists_cons_of_ne_nil (natToBytesBE_ne_nil _ hq) with ⟨x, xs, hx⟩
      rw [hx]
      rw [hx] at this
      simpa using this

theorem natToBytesBE_mem_lt (m : ℕ) : ∀ x ∈ natToBytesBE m, x < 256 := by
  induction m using Nat.strong_induction_on with
  | _ m ih =>
    cases m with
    | zero => simp [natToBytesBE_zero]
    | succ k =>
      rw [natToBytesBE_succ]
      intro x hx
      rcases List.mem_append.mp hx with h1 | h1
      · have hq : (k + 1) / 256 < k + 1 :=
          Nat.div_lt_self (Nat.succ_pos k) (by norm_num : (1:ℕ) < 256)
        exact ih _ hq x h1
      · simp at h1
        rw [h1]
        exact Nat.mod_lt _ (by norm_num)

theorem bytesToNatBE_zeros_append (k : ℕ) (bs : List ℕ) :
    bytesToNatBE (List.replicate k 0 ++ bs) = bytesToNatBE bs := by
  induction k with
  | zero => simp
  | succ j ih =>
    show bytesToNatBE (0 :: (List.replicate j 0 ++ bs)) = _
    unfold bytesToNatBE
    show (List.replicate j 0 ++ bs).foldl _ (0 * 256 + 0) = _
    simpa [bytesToNatBE] using ih

theorem nSM2_lt_pow : nSM2 < 256 ^ 32 := by decide

set_option maxRecDepth 4096 in
theorem land_128_iff : ∀ h : ℕ, h < 256 → ((h &&& 128 ≠ 0) ↔ 128 ≤ h) := by decide

theorem natToBytesBE_headI_lt (v : ℕ) (hv : 0 < v) : (natToBytesBE v).headI < 256 := by
  rcases List.exists_cons_of_ne_nil (natToBytesBE_ne_nil v hv) with ⟨x, xs, hx⟩
  have : (natToBytesBE v).headI ∈ natToBytesBE v := by
    rw [hx]; exact List.mem_cons_self _ _
  exact natToBytesBE_mem_lt v _ this

theorem canonicalizeInt_eq_asn1IntField (v : ℕ) (hv : 0 < v) :
    canonicalizeInt v = asn1IntField v := by
  unfold canonicalizeInt asn1IntField
  have hne : natToBytesBE v ≠ [] := natToBytesBE_ne_nil v hv
  simp only [hne, if_neg, if_false]
  have hlt : (natToBytesBE v).headI < 256 := natToBytesBE_headI_lt v hv
  by_cases hc : 128 ≤ (natToBytesBE v).headI
  · rw [if_pos ((land_128_iff _ hlt).mpr hc), if_pos hc]
  · rw [if_neg (fun hl => hc ((land_128_iff _ hlt).mp hl)), if_neg hc]

theorem asn1IntField_length_le (v : ℕ) (h : v < 256 ^ 32) :
    (asn1IntField v).length ≤ 33 := by
  have := natToBytesBE_length_le v 32 h
  unfold asn1IntField
  by_cases hc : 128 ≤ (natToBytesBE v).headI
  · rw [if_pos hc]; simp; omega
  · rw [if_neg hc]; omega

theorem bytesToNatBE_asn1IntField (v : ℕ) : bytesToNatBE (asn1IntField v) = v := by
  unfold asn1IntField
  by_cases hc : 128 ≤ (natToBytesBE v).headI
  · rw [if_pos hc]
    show bytesToNatBE (List.replicate 1 0 ++ natToBytesBE v) = v
    rw [bytesToNatBE_zeros_append, bytesToNatBE_natToBytesBE]
  · rw [if_neg hc, bytesToNatBE_natToBytesBE]

theorem pow_256_32 : (256 : ℕ) ^ 32 =
    115792089237316195423570985008687907853269984665640564039457584007913129639936 := by
  norm_num

theorem lt_pow_of_le_nSM2_sub_one (v : ℕ) (h : v ≤ nSM2 - 1) : v < 256 ^ 32 := by
  have h1 : nSM2 = 0xFFFFFFFEFFFFFFFFFFFFFFFFFFFFFFFF7203DF6B21C6052B53BBF40939D54123 := rfl
  rw [pow_256_32]
  rw [h1] at h
  omega

theorem serializeSignature_eq (r s : ℕ) (hr1 : 0 < r) (hs1 : 0 < s)
    (hrA : (asn1IntField r).length ≤ 33) (hsA : (asn1IntField s).length ≤ 33) :
    SerializeSignature r s =
      [0x30, 4 + (asn1IntField r).length + (asn1IntField s).length,
       0x02, (asn1IntField r).length] ++ asn1IntField r ++
      [0x02, (asn1IntField s).length] ++ asn1IntField s := by
  unfold SerializeSignature
  rw [canonicalizeInt_eq_asn1IntField r hr1, canonicalizeInt_eq_asn1IntField s hs1]
  have h1 : (6 + (asn1IntField r).length + (asn1IntField s).length - 2) % 256 =
      4 + (asn1IntField r).length + (asn1IntField s).length := by
    rw [Nat.mod_eq_of_lt (by omega)]
    omega
  have h2 : (asn1IntField r).length % 256 = (asn1IntField r).length :=
    Nat.mod_eq_of_lt (by omega)
  have h3 : (asn1IntField s).length % 256 = (asn1IntField s).length :=
    Nat.mod_eq_of_lt (by omega)
  show [0x30, (6 + (asn1IntField r).length + (asn1IntField s).length - 2) % 256,
        0x02, (asn1IntField r).length % 256] ++ asn1IntField r ++
        [0x02, (asn1IntField s).length % 256] ++ asn1IntField s = _
  rw [h1, h2, h3]

/-! ### The claims -/

/-- C2: for `r, s` in `[1, n-1]`, `SerializeSignature` returns exactly
`0x30 LEN 0x02 LEN(r) r 0x02 LEN(s) s`, where each integer field is the
minimal big-endian encoding with one leading zero byte prepended exactly
when the high bit of its first byte would otherwise be set (the final
conjuncts certify the value and the absence of a leading zero byte in
the minimal encoding), and `LEN` is the total length minus 2, i.e. the
length of the two inner integer fields. -/
theorem serializeSignature_layout (r s : ℕ)
    (hr1 : 1 ≤ r) (hr2 : r ≤ nSM2 - 1) (hs1 : 1 ≤ s) (hs2 : s ≤ nSM2 - 1) :
    SerializeSignature r s =
      [0x30, 4 + (asn1IntField r).length + (asn1IntField s).length,
       0x02, (asn1IntField r).length] ++ asn1IntField r ++
      [0x02, (asn1IntField s).length] ++ asn1IntField s ∧
    4 + (asn1IntField r).length + (asn1IntField s).length =
      (SerializeSignature r s).length - 2 ∧
    ([0x02, (asn1IntField r).length] ++ asn1IntField r ++
      [0x02, (asn1IntField s).length] ++ asn1IntField s).length =
      4 + (asn1IntField r).length + (asn1IntField s).length ∧
    bytesToNatBE (asn1IntField r) = r ∧ bytesToNatBE (asn1IntField s) = s ∧
    (natToBytesBE r).headI ≠ 0 ∧ (natToBytesBE s).headI ≠ 0 := by
  have hrA : (asn1IntField r).length ≤ 33 :=
    asn1IntField_length_le r (lt_pow_of_le_nSM2_sub_one r hr2)
  have hsA : (asn1IntField s).length ≤ 33 :=
    asn1IntField_length_le s (lt_pow_of_le_nSM2_sub_one s hs2)
  have hser := serializeSignature_eq r s hr1 hs1 hrA hsA
  refine ⟨hser, ?_, ?_, bytesToNatBE_asn1IntField r, bytesToNatBE_asn1IntField s,
    natToBytesBE_head_ne_zero r hr1, natToBytesBE_head_ne_zero s hs1⟩
  · rw [hser]
    simp [List.length_append]
    omega
  · simp [List.length_append]
    omega

/-- Witness for C2 at the concrete input `r = s = 1`. -/
theorem serializeSignature_layout_witness :
    SerializeSignature 1 1 =
      [0x30, 4 + (asn1IntField 1).length + (asn1IntField 1).length,
       0x02, (asn1IntField 1).length] ++ asn1IntField 1 ++
      [0x02, (asn1IntField 1).length] ++ asn1IntField 1 ∧
    4 + (asn1IntField 1).length + (asn1IntField 1).length =
      (SerializeSignature 1 1).length - 2 ∧
    ([0x02, (asn1IntField 1).length] ++ asn1IntField 1 ++
      [0x02, (asn1IntField 1).length] ++ asn1IntField 1).length =
      4 + (asn1IntField 1).length + (asn1IntField 1).length ∧
    bytesToNatBE (asn1IntField 1) = 1 ∧ bytesToNatBE (asn1IntField 1) = 1 ∧
    (natToBytesBE 1).headI ≠ 0 ∧ (natToBytesBE 1).headI ≠ 0 :=
  serializeSignature_layout 1 1 (by decide) (by decide) (by decide) (by decide)

/-- C4: for `d` in `[1, n-1]`, `SerializePrivateKey` yields a 32-byte
big-endian left-zero-padded buffer whose big-endian interpretation
(`PrivKeyFromBytes` via `big.Int.SetBytes`) is exactly `d`. -/
theorem serializePrivateKey_roundtrip (d : ℕ) (h1 : 1 ≤ d) (h2 : d ≤ nSM2 - 1) :
    (SerializePrivateKey d).length = 32 ∧
    SerializePrivateKey d =
      List.replicate (32 - (natToBytesBE d).length) 0 ++ natToBytesBE d ∧
    bytesToNatBE (SerializePrivateKey d) = d := by
  have hlen : (natToBytesBE d).length ≤ 32 :=
    natToBytesBE_length_le d 32 (lt_pow_of_le_nSM2_sub_one d h2)
  have hform : SerializePrivateKey d =
      List.replicate (32 - (natToBytesBE d).length) 0 ++ natToBytesBE d := by
    unfold SerializePrivateKey paddedAppend SM2PrivateKeyLength
    rw [List.nil_append]
  refine ⟨?_, hform, ?_⟩
  · rw [hform]
    simp [List.length_append, List.length_replicate]
    omega
  · rw [hform, bytesToNatBE_zeros_append, bytesToNatBE_natToBytesBE]

/-- Witness for C4 at the concrete input `d = 1`. -/
theorem serializePrivateKey_roundtrip_witness :
    (SerializePrivateKey 1).length = 32 ∧
    SerializePrivateKey 1 =
      List.replicate (32 - (natToBytesBE 1).length) 0 ++ natToBytesBE 1 ∧
    bytesToNatBE (SerializePrivateKey 1) = 1 :=
  serializePrivateKey_roundtrip 1 (by decide) (by decide)

theorem parseIntField_exact (xs ys : List ℕ) :
    parseIntField (0x02 :: xs.length :: (xs ++ ys)) =
      Except.ok (bytesToNatBE xs, ys) := by
  show (if (0x02:ℕ) = 0x02 then
      if xs.length ≤ (xs ++ ys).length then
        Except.ok (bytesToNatBE ((xs ++ ys).take xs.length), (xs ++ ys).drop xs.length)
      else Except.error SM2Error.MalformedSignature
    else Except.error SM2Error.MalformedSignature) = _
  rw [if_pos rfl, if_pos (by simp), List.take_left, List.drop_left]

/-- C3: decoding inverts encoding — for `r, s` in `[1, n-1]`,
`DeserializeSignature (SerializeSignature r s)` succeeds and returns
exactly `(r, s)`. -/
theorem deserializeSignature_serializeSignature (r s : ℕ)
    (hr1 : 1 ≤ r) (hr2 : r ≤ nSM2 - 1) (hs1 : 1 ≤ s) (hs2 : s ≤ nSM2 - 1) :
    DeserializeSignature (SerializeSignature r s) = Except.ok (r, s) := by
  have hrA : (asn1IntField r).length ≤ 33 :=
    asn1IntField_length_le r (lt_pow_of_le_nSM2_sub_one r hr2)
  have hsA : (asn1IntField s).length ≤ 33 :=
    asn1IntField_length_le s (lt_pow_of_le_nSM2_sub_one s hs2)
  rw [serializeSignature_eq r s hr1 hs1 hrA hsA]
  have hshape : [0x30, 4 + (asn1IntField r).length + (asn1IntField s).length,
       0x02, (asn1IntField r).length] ++ asn1IntField r ++
      [0x02, (asn1IntField s).length] ++ asn1IntField s =
      0x30 :: (4 + (asn1IntField r).length + (asn1IntField s).length) ::
        (0x02 :: (asn1IntField r).length ::
          (asn1IntField r ++ (0x02 :: (asn1IntField s).length :: asn1IntField s))) := by
    simp
  rw [hshape]
  show (if (0x30:ℕ) = 0x30 ∧ (4 + (asn1IntField r).length + (asn1IntField s).length) =
        (0x02 :: (asn1IntField r).length ::
          (asn1IntField r ++ (0x02 :: (asn1IntField s).length :: asn1IntField s))).length then
      match parseIntField (0x02 :: (asn1IntField r).length ::
          (asn1IntField r ++ (0x02 :: (asn1IntField s).length :: asn1IntField s))) with
      | Except.ok (r1, rest2) =>
        match parseIntField rest2 with
        | Except.ok (s1, rest3) =>
          if rest3 = [] then Except.ok (r1, s1)
          else Except.error SM2Error.MalformedSignature
        | Except.error e => Except.error e
      | Except.error e => Except.error e
    else Except.error SM2Error.MalformedSignature) = Except.ok (r, s)
  rw [if_pos ⟨rfl, by simp [List.length_append]; omega⟩]
  have hfst : parseIntField (0x02 :: (asn1IntField r).length ::
      (asn1IntField r ++ (0x02 :: (asn1IntField s).length :: asn1IntField s))) =
      Except.ok (bytesToNatBE (asn1IntField r),
        0x02 :: (asn1IntField s).length :: asn1IntField s) :=
    parseIntField_exact (asn1IntField r) _
  rw [hfst]
  show (match parseIntField (0x02 :: (asn1IntField s).length :: asn1IntField s) with
      | Except.ok (s1, rest3) =>
        if rest3 = [] then Except.ok (bytesToNatBE (asn1IntField r), s1)
        else Except.error SM2Error.MalformedSignature
      | Except.error e => Except.error e) = Except.ok (r, s)
  have hsnd : parseIntField (0x02 :: (asn1IntField s).length :: asn1IntField s) =
      Except.ok (bytesToNatBE (asn1IntField s), ([] : List ℕ)) := by
    have := parseIntField_exact (asn1IntField s) []
    rwa [List.append_nil] at this
  rw [hsnd]
  show Except.ok (bytesToNatBE (asn1IntField r), bytesToNatBE (asn1IntField s)) =
    Except.ok (r, s)
  rw [bytesToNatBE_asn1IntField, bytesToNatBE_asn1IntField]

/-- Witness for C3 at the concrete input `r = s = 1`. -/
theorem deserializeSignature_serializeSignature_witness :
    DeserializeSignature (SerializeSignature 1 1) = Except.ok (1, 1) :=
  deserializeSignature_serializeSignature 1 1 (by decide) (by decide)
    (by decide) (by decide)

/-- C6: `SM2Sign` and `SM2Verify` with a nil identifier behave
identically to the same call with the explicit `DefaultUID`, for every
message, key, signature and library routine, and `DefaultUID` is
exactly the 16 ASCII bytes of the string 1234567812345678. -/
theorem defaultUID_nil_behaviour :
    (∀ inner msg key, SM2Sign inner msg key none =
      SM2Sign inner msg key (some DefaultUID)) ∧
    (∀ innerv pk msg sig, SM2Verify innerv pk msg none sig =
      SM2Verify innerv pk msg (some DefaultUID) sig) ∧
    DefaultUID = "1234567812345678".data.map Char.toNat ∧
    DefaultUID.length = 16 := by
  refine ⟨fun inner msg key => rfl, fun innerv pk msg sig => rfl, by decide, by decide⟩

/-- C7 counterexample: the claim says a structurally malformed
signature passed to verification is reported as an explicit error
result distinguishable from the ordinary boolean outcome; in the code,
`SM2Verify` returns the plain boolean `false` on the malformed input
`[0]` — the very same observable value it returns for a well-formed
encoding of a signature that simply does not verify — even though the
decoder itself did report an explicit error. -/
theorem sm2Verify_malformed_not_distinguishable :
    DeserializeSignature [0] = Except.error SM2Error.MalformedSignature ∧
    SM2Verify (fun _ _ _ _ _ => false) [] [] none [0] = false ∧
    SM2Verify (fun _ _ _ _ _ => false) [] [] none (SerializeSignature 1 1) = false := by
  refine ⟨rfl, rfl, ?_⟩
  rfl

/-- C7 amended: `DeserializeSignature` reports structural mismatches
(wrong tag, length mismatch, trailing bytes) as an explicit
`MalformedSignature` error, but the boolean-returning `SM2Verify`
collapses every such error into `false`, indistinguishable from an
ordinary failed verification. -/
theorem sm2Verify_error_collapses_to_false :
    (∀ inner pk msg uid sig e, DeserializeSignature sig = Except.error e →
      SM2Verify inner pk msg uid sig = false) ∧
    DeserializeSignature [0x31, 0] = Except.error SM2Error.MalformedSignature ∧
    DeserializeSignature [0x30, 5, 0x02] = Except.error SM2Error.MalformedSignature ∧
    DeserializeSignature (SerializeSignature 1 1 ++ [0]) =
      Except.error SM2Error.MalformedSignature := by
  refine ⟨?_, rfl, rfl, rfl⟩
  intro inner pk msg uid sig e h
  unfold SM2Verify
  rw [h]

/-- Witness for the implication of the amended C7: even a library
routine that accepts everything yields `false` through `SM2Verify` on
a malformed encoding. -/
theorem sm2Verify_error_collapses_to_false_witness :
    SM2Verify (fun _ _ _ _ _ => true) [] [] none [0x31, 0] = false :=
  sm2Verify_error_collapses_to_false.1 (fun _ _ _ _ _ => true) [] [] none
    [0x31, 0] SM2Error.MalformedSignature rfl

/-- C5 failing input: with the entropy source returning 32 zero bytes,
the `GenerateKey` loop accepts the draw on its first iteration (the
lexicographic compare against the curve-order bytes passes, since the
zero buffer is below it) and the resulting private scalar is `0`,
outside the range `[1, n-1]` stated by the claim — the loop never
excludes the zero scalar. -/
theorem generateKey_accepts_zero_scalar :
    generateKeyScalar (fun _ => Except.ok (List.replicate 32 0)) 1 =
      some (Except.ok 0) ∧
    bytesLt (List.replicate 32 0) NBytesSM2 = true ∧
    ¬ 1 ≤ bytesToNatBE (List.replicate 32 0) := by
  refine ⟨rfl, rfl, by decide⟩

/-- C9: an entropy-source failure is propagated immediately as a fatal
result, never silently retried and never looped on, by every operation
that draws random bytes: if every draw before index `j` was an
ordinary rejected draw and draw `j` reports failure, then the
`GenerateKey` loop, the spec-modelled signing retry loop, and the
spec-modelled encryption retry loop each stop with the fatal error as
soon as they reach it, for every fuel larger than `j`. -/
theorem entropy_failure_fatal :
    (∀ (draws : ℕ → Except Unit (List ℕ)) (j fuel : ℕ),
      j < fuel →
      draws j = Except.error () →
      (∀ i < j, ∃ key, draws i = Except.ok key ∧ bytesLt key NBytesSM2 = false) →
      generateKeyLoop draws fuel = some (Except.error ())) ∧
    (∀ (n : ℕ) [NeZero n] (inv : ZMod n → ZMod n) (xc : ZMod n → ℕ)
       (d e : ℕ) (ks : ℕ → Except Unit ℕ) (j fuel : ℕ),
      j < fuel →
      ks j = Except.error () →
      (∀ i < j, ∃ k, ks i = Except.ok k ∧ signAttempt n inv xc d e k = none) →
      signLoop n inv xc d e ks fuel = some (Except.error ())) ∧
    (∀ (n : ℕ) [NeZero n] (xBytes yBytes : ZMod n → List ℕ)
       (kdf : List ℕ → ℕ → List ℕ) (hash : List ℕ → List ℕ) (P : ZMod n)
       (msg : List ℕ) (ks : ℕ → Except Unit ℕ) (j fuel : ℕ),
      j < fuel →
      ks j = Except.error () →
      (∀ i < j, ∃ k, ks i = Except.ok k ∧
        encryptAttempt n xBytes yBytes kdf hash P msg k = none) →
      encryptLoop n xBytes yBytes kdf hash P msg ks fuel =
        some (Except.error ())) := by
  refine ⟨?_, ?_, ?_⟩
  · intro draws j
    induction j generalizing draws with
    | zero =>
      intro fuel hj herr _
      cases fuel with
      | zero => omega
      | succ f =>
        show (match draws 0 with
          | Except.error e => some (Except.error e)
          | Except.ok key =>
            if bytesLt key NBytesSM2 then some (Except.ok key)
            else generateKeyLoop (fun i => draws (i + 1)) f) = some (Except.error ())
        rw [herr]
    | succ j ih =>
      intro fuel hj herr hprev
      cases fuel with
      | zero => omega
      | succ f =>
        rcases hprev 0 (Nat.succ_pos j) with ⟨key, hkey, hrej⟩
        show (match draws 0 with
          | Except.error e => some (Except.error e)
          | Except.ok key =>
            if bytesLt key NBytesSM2 then some (Except.ok key)
            else generateKeyLoop (fun i => draws (i + 1)) f) = some (Except.error ())
        rw [hkey]
        show (if bytesLt key NBytesSM2 then some (Except.ok key)
          else generateKeyLoop (fun i => draws (i + 1)) f) = some (Except.error ())
        rw [hrej]
        show generateKeyLoop (fun i => draws (i + 1)) f = some (Except.error ())
        exact ih (fun i => draws (i + 1)) f (by omega) herr
          (fun i hi => hprev (i + 1) (by omega))
  · intro n hn inv xc d e ks j
    induction j generalizing ks with
    | zero =>
      intro fuel hj herr _
      cases fuel with
      | zero => omega
      | succ f =>
        show (match ks 0 with
          | Except.error err => some (Except.error err)
          | Except.ok k =>
            match signAttempt n inv xc d e k with
            | some rs => some (Except.ok rs)
            | none => signLoop n inv xc d e (fun i => ks (i + 1)) f) =
          some (Except.error ())
        rw [herr]
    | succ j ih =>
      intro fuel hj herr hprev
      cases fuel with
      | zero => omega
      | succ f =>
        rcases hprev 0 (Nat.succ_pos j) with ⟨k, hk, hrej⟩
        show (match ks 0 with
          | Except.error err => some (Except.error err)
          | Except.ok k =>
            match signAttempt n inv xc d e k with
            | some rs => some (Except.ok rs)
            | none => signLoop n inv xc d e (fun i => ks (i + 1)) f) =
          some (Except.error ())
        rw [hk]
        show (match signAttempt n inv xc d e k with
          | some rs => some (Except.ok rs)
          | none => signLoop n inv xc d e (fun i => ks (i + 1)) f) =
          some (Except.error ())
        rw [hrej]
        show signLoop n inv xc d e (fun i => ks (i + 1)) f = some (Except.error ())
        exact ih (fun i => ks (i + 1)) f (by omega) herr
          (fun i hi => hprev (i + 1) (by omega))
  · intro n hn xBytes yBytes kdf hash P msg ks j
    induction j generalizing ks with
    | zero =>
      intro fuel hj herr _
      cases fuel with
      | zero => omega
      | succ f =>
        show (match ks 0 with
          | Except.error err => some (Except.error err)
          | Except.ok k =>
            match encryptAttempt n xBytes yBytes kdf hash P msg k with
            | some c => some (Except.ok c)
            | none =>
              encryptLoop n xBytes yBytes kdf hash P msg (fun i => ks (i + 1)) f) =
          some (Except.error ())
        rw [herr]
    | succ j ih =>
      intro fuel hj herr hprev
      cases fuel with
      | zero => omega
      | succ f =>
        rcases hprev 0 (Nat.succ_pos j) with ⟨k, hk, hrej⟩
        show (match ks 0 with
          | Except.error err => some (Except.error err)
          | Except.ok k =>
            match encryptAttempt n xBytes yBytes kdf hash P msg k with
            | some c => some (Except.ok c)
            | none =>
              encryptLoop n xBytes yBytes kdf hash P msg (fun i => ks (i + 1)) f) =
          some (Except.error ())
        rw [hk]
        show (match encryptAttempt n xBytes yBytes kdf hash P msg k with
          | some c => some (Except.ok c)
          | none =>
            encryptLoop n xBytes yBytes kdf hash P msg (fun i => ks (i + 1)) f) =
          some (Except.error ())
        rw [hrej]
        show encryptLoop n xBytes yBytes kdf hash P msg (fun i => ks (i + 1)) f =
          some (Except.error ())
        exact ih (fun i => ks (i + 1)) f (by omega) herr
          (fun i hi => hprev (i + 1) (by omega))

/-- Witness for C9: all three loops stop with the fatal error on the
first draw when the entropy source is broken from the start. -/
theorem entropy_failure_fatal_witness :
    generateKeyLoop (fun _ => Except.error ()) 3 = some (Except.error ()) ∧
    signLoop 5 (fun z => z) (fun z => z.val) 1 0 (fun _ => Except.error ()) 3 =
      some (Except.error ()) ∧
    encryptLoop 5 (fun z => [z.val]) (fun z => [z.val])
      (fun seed len => List.replicate len 1) (fun l => l) ((1 : ℕ) : ZMod 5)
      [0] (fun _ => Except.error ()) 3 = some (Except.error ()) :=
  ⟨entropy_failure_fatal.1 (fun _ => Except.error ()) 0 3 (by decide) rfl
      (fun i hi => absurd hi (Nat.not_lt_zero i)),
   entropy_failure_fatal.2.1 5 (fun z => z) (fun z => z.val) 1 0
      (fun _ => Except.error ()) 0 3 (by decide) rfl
      (fun i hi => absurd hi (Nat.not_lt_zero i)),
   entropy_failure_fatal.2.2 5 (fun z => [z.val]) (fun z => [z.val])
      (fun seed len => List.replicate len 1) (fun l => l) ((1 : ℕ) : ZMod 5)
      [0] (fun _ => Except.error ()) 0 3 (by decide) rfl
      (fun i hi => absurd hi (Nat.not_lt_zero i))⟩

theorem signAttempt_verifySig (n : ℕ) [NeZero n] (inv : ZMod n → ZMod n)
    (xc : ZMod n → ℕ) (d e k r s : ℕ)
    (hk : k < n)
    (hinv : inv (1 + (d : ZMod n)) * (1 + (d : ZMod n)) = 1)
    (h : signAttempt n inv xc d e k = some (r, s)) :
    verifySig n xc (d : ZMod n) e r s = true := by
  simp only [signAttempt] at h
  split_ifs at h with hcond hs0z
  rw [Option.some_inj, Prod.mk.injEq] at h
  obtain ⟨hr, hs⟩ := h
  subst hr
  subst hs
  push_neg at hcond
  obtain ⟨hr0, hrk⟩ := hcond
  have hnpos : 0 < n := Nat.pos_of_ne_zero (NeZero.ne n)
  have hrlt : (e + xc (k : ZMod n)) % n < n := Nat.mod_lt _ hnpos
  set dz := (d : ZMod n) with hdz
  set kz := (k : ZMod n) with hkz
  set R := (e + xc kz) % n with hR
  set s0 := inv (1 + dz) * (kz - (R : ZMod n) * dz) with hs0def
  have hsvne : s0.val ≠ 0 := by
    rw [Ne, ZMod.val_eq_zero]
    exact hs0z
  have hsvlt : s0.val < n := ZMod.val_lt s0
  have hszs0 : ((s0.val : ℕ) : ZMod n) = s0 := ZMod.natCast_rightInverse s0
  have hmul : (1 + dz) * s0 = kz - (R : ZMod n) * dz := by
    rw [hs0def, ← mul_assoc, mul_comm (1 + dz) (inv (1 + dz)), hinv, one_mul]
  have htne : (R + s0.val) % n ≠ 0 := by
    intro ht
    have hdvd : n ∣ R + s0.val := Nat.dvd_of_mod_eq_zero ht
    have hcast : ((R + s0.val : ℕ) : ZMod n) = 0 :=
      (ZMod.natCast_zmod_eq_zero_iff_dvd _ _).mpr hdvd
    push_cast at hcast
    rw [hszs0] at hcast
    have hsum : (R : ZMod n) + kz = 0 := by
      have h3 : (1 + dz) * ((R : ZMod n) + s0) = 0 := by rw [hcast, mul_zero]
      have h4 : (1 + dz) * ((R : ZMod n) + s0) = (R : ZMod n) + kz := by
        rw [mul_add, hmul]
        ring
      rw [h4] at h3
      exact h3
    have hdvd2 : n ∣ R + k := by
      rw [← ZMod.natCast_zmod_eq_zero_iff_dvd]
      push_cast
      exact hsum
    rcases hdvd2 with ⟨c, hc⟩
    have hcases : c = 0 ∨ c = 1 ∨ 2 ≤ c := by omega
    rcases hcases with h0 | h1c | h2c
    · subst h0
      omega
    · subst h1c
      rw [Nat.mul_one] at hc
      exact hrk hc
    · have hmul2 : n * 2 ≤ n * c := Nat.mul_le_mul_left n h2c
      rw [← hc] at hmul2
      clear hc
      omega
  have hpt : ((s0.val : ZMod n) + (((R + s0.val) % n : ℕ) : ZMod n) * dz) = kz := by
    rw [hszs0, ZMod.natCast_mod, Nat.cast_add, hszs0]
    have hexp : s0 + ((R : ZMod n) + s0) * dz = (1 + dz) * s0 + (R : ZMod n) * dz := by
      ring
    rw [hexp, hmul]
    ring
  simp only [verifySig]
  rw [if_neg (by push_neg; exact ⟨hr0, by omega, hsvne, by omega⟩)]
  rw [if_neg htne]
  rw [hpt]
  simp only [decide_eq_true_eq]

theorem signLoop_verifySig (n : ℕ) [NeZero n] (inv : ZMod n → ZMod n)
    (xc : ZMod n → ℕ) (d e : ℕ) (ks : ℕ → Except Unit ℕ) (fuel r s : ℕ)
    (hks : ∀ i k, ks i = Except.ok k → k < n)
    (hinv : inv (1 + (d : ZMod n)) * (1 + (d : ZMod n)) = 1)
    (h : signLoop n inv xc d e ks fuel = some (Except.ok (r, s))) :
    verifySig n xc (d : ZMod n) e r s = true := by
  induction fuel generalizing ks with
  | zero => simp [signLoop] at h
  | succ f ih =>
    have hstep : signLoop n inv xc d e ks (f + 1) =
        (match ks 0 with
         | Except.error err => some (Except.error err)
         | Except.ok k =>
           match signAttempt n inv xc d e k with
           | some rs => some (Except.ok rs)
           | none => signLoop n inv xc d e (fun i => ks (i + 1)) f) := rfl
    rw [hstep] at h
    cases hk0 : ks 0 with
    | error err =>
      rw [hk0] at h
      simp at h
    | ok k =>
      rw [hk0] at h
      have h5 : (match signAttempt n inv xc d e k with
          | some rs => some (Except.ok rs)
          | none => signLoop n inv xc d e (fun i => ks (i + 1)) f) =
          some (Except.ok (r, s)) := h
      cases hatt : signAttempt n inv xc d e k with
      | none =>
        rw [hatt] at h5
        have h2 : signLoop n inv xc d e (fun i => ks (i + 1)) f =
            some (Except.ok (r, s)) := h5
        exact ih (fun i => ks (i + 1)) (fun i k2 hk2 => hks (i + 1) k2 hk2) h2
      | some rs =>
        rw [hatt] at h5
        have h3 : (some (Except.ok rs) : Option (Except Unit (ℕ × ℕ))) =
            some (Except.ok (r, s)) := h5
        rw [Option.some_inj] at h3
        injection h3 with h4
        rw [h4] at hatt
        exact signAttempt_verifySig n inv xc d e k r s (hks 0 k hk0) hinv hatt

/-- C1: sign-then-verify correctness of the spec-modelled SM2
algorithm over the abstract cyclic curve group: whenever the signing
model — private key `d` in `[1, n-1]`, any message, any identifier
(including the default used for a nil one), any stream of in-range
random scalars, any fuel, and a modular inverse that is correct at
`1 + d` — produces a signature `(r, s)`, verifying `(r, s)` with the
matching public point `P = d·G`, the same message and the same
identifier returns `true`. -/
theorem sm2_sign_verify_correct (n : ℕ) [NeZero n] (inv : ZMod n → ZMod n)
    (xc : ZMod n → ℕ) (hash : List ℕ → List ℕ) (pa pb pxG pyG pxA pyA : List ℕ)
    (d : ℕ) (msg : List ℕ) (uid : Option (List ℕ)) (ks : ℕ → Except Unit ℕ)
    (fuel r s : ℕ)
    (hd : 1 ≤ d ∧ d < n)
    (hks : ∀ i k, ks i = Except.ok k → 1 ≤ k ∧ k < n)
    (hinv : inv (1 + (d : ZMod n)) * (1 + (d : ZMod n)) = 1)
    (hsig : sm2SignModel n inv xc hash pa pb pxG pyG pxA pyA d msg uid ks fuel =
      some (Except.ok (r, s))) :
    sm2VerifyModel n xc hash pa pb pxG pyG pxA pyA ((d : ZMod n)) msg uid r s =
      true :=
  signLoop_verifySig n inv xc d
    (sm2Digest hash pa pb pxG pyG pxA pyA (resolveUID uid) msg) ks fuel r s
    (fun i k hk => (hks i k hk).2) hinv hsig

/-- Witness for C1 on a concrete instance: order 5, `d = 1`, empty
message, nil identifier (resolved to the default), constant scalar
stream `k = 3`; signing produces `(1, 1)` and verification accepts. -/
theorem sm2_sign_verify_correct_witness :
    sm2VerifyModel 5 ZMod.val (fun l => l) [] [] [] [] [] [] ((1 : ℕ) : ZMod 5)
      [] none 1 1 = true :=
  sm2_sign_verify_correct 5 (zmodInvSmall 5) ZMod.val (fun l => l) [] [] [] [] [] []
    1 [] none (fun _ => Except.ok 3) 1 1 1
    (by decide)
    (fun i k hk => by
      injection hk with hk2
      rw [← hk2]
      decide)
    (by decide)
    rfl

/-- C10: only a nil identifier (`none`) is replaced by the default —
an empty but non-nil identifier is passed through unchanged and the
two differ — and on a concrete instance of the spec-modelled algorithm
a signature produced with a nil identifier fails to verify under the
empty non-nil identifier, though it verifies under the nil one. -/
theorem uid_nil_vs_empty :
    resolveUID (some []) = [] ∧
    resolveUID none = DefaultUID ∧
    DefaultUID ≠ [] ∧
    sm2SignModel 5 (zmodInvSmall 5) ZMod.val (fun l => l) [] [] [] [] [] []
      1 [] none (fun _ => Except.ok 3) 1 = some (Except.ok (1, 1)) ∧
    sm2VerifyModel 5 ZMod.val (fun l => l) [] [] [] [] [] [] ((1 : ℕ) : ZMod 5)
      [] none 1 1 = true ∧
    sm2VerifyModel 5 ZMod.val (fun l => l) [] [] [] [] [] [] ((1 : ℕ) : ZMod 5)
      [] (some []) 1 1 = false :=
  ⟨rfl, rfl, by decide, rfl, rfl, rfl⟩

/-- C8: a 33-byte compressed public-key input whose x-coordinate and
parity bit admit no `y` satisfying the curve equation is rejected by
the spec-modelled decoder with `InvalidPoint` rather than yielding a
point. -/
theorem decodePublicKey_invalidPoint (p ca cb pb : ℕ) (xbytes : List ℕ)
    (hlen : xbytes.length = 32)
    (hpb : pb = 0x02 ∨ pb = 0x03)
    (hnoy : ∀ y < p, ¬(y * y % p =
      (bytesToNatBE xbytes ^ 3 + ca * bytesToNatBE xbytes + cb) % p ∧
      y % 2 = pb % 2)) :
    decodePublicKey p ca cb (pb :: xbytes) = Except.error SM2Error.InvalidPoint := by
  have hfind : (List.range p).find?
      (fun y => y * y % p == (bytesToNatBE xbytes ^ 3 + ca * bytesToNatBE xbytes
        + cb) % p && y % 2 == pb % 2) = none := by
    rw [List.find?_eq_none]
    intro y hy
    have hylt : y < p := List.mem_range.mp hy
    have := hnoy y hylt
    simp only [Bool.and_eq_true, beq_iff_eq]
    intro hcontra
    exact this hcontra
  show (if xbytes.length = 32 then
      if pb = 0x02 ∨ pb = 0x03 then
        match (List.range p).find?
            (fun y => y * y % p == (bytesToNatBE xbytes ^ 3 +
              ca * bytesToNatBE xbytes + cb) % p && y % 2 == pb % 2) with
        | some y => Except.ok (bytesToNatBE xbytes, y)
        | none => Except.error SM2Error.InvalidPoint
      else Except.error SM2Error.InvalidPoint
    else Except.error SM2Error.InvalidKeyLength) = Except.error SM2Error.InvalidPoint
  rw [if_pos hlen, if_pos hpb, hfind]

/-- Witness for C8: over the field of size 7 with curve
`y^2 = x^3 + 3`, the value `x = 0` admits no square root of `3`, so
the 33-byte input with parity byte 2 and a zero x-coordinate is
rejected with `InvalidPoint`. -/
theorem decodePublicKey_invalidPoint_witness :
    decodePublicKey 7 0 3 (2 :: List.replicate 32 0) =
      Except.error SM2Error.InvalidPoint :=
  decodePublicKey_invalidPoint 7 0 3 2 (List.replicate 32 0) (by decide)
    (Or.inl rfl) (by decide)

end GM
